import Mathlib

/-!
Verification of the flashcard learning core (Modified-Leitner algorithm).

The definitions below are a shallow embedding of the TypeScript source:
* `Flashcard`, `AnswerDifficulty`, `BucketMap` from `flashcards.ts`;
* `toBucketSets`, `practice`, `update`, `computeProgress` from `algorithm.ts`;
* `findCard` from `state.ts`.

JavaScript `Map` and `Set` preserve insertion order, so they are embedded
as association lists (`List (Nat × CardSet)`) and duplicate-free lists
(`CardSet`).  Well-formedness of a bucket store (distinct keys, duplicate-free
sets) is carried as explicit hypotheses where a theorem needs it.
-/

namespace Flashcards

/-- A flashcard, immutable, from `flashcards.ts`.  Equality is content
equality of all fields; the spec identifies cards by front/back content. -/
structure Flashcard where
  front : String
  back : String
  hint : String
  tags : List String
deriving DecidableEq, Repr

/-- The user's answer difficulty for a practice trial, from `flashcards.ts`. -/
inductive AnswerDifficulty where
  | Wrong
  | Hard
  | Easy
deriving DecidableEq, Repr

/-- A JavaScript `Set<Flashcard>`: an insertion-ordered, duplicate-free list. -/
abbrev CardSet := List Flashcard

/-- A JavaScript `Map<number, Set<Flashcard>>`: an insertion-ordered
association list from bucket numbers to card sets. -/
abbrev BucketMap := List (Nat × CardSet)

/-- JavaScript `Set.add`: appends the element unless already present. -/
def setAdd (s : CardSet) (c : Flashcard) : CardSet :=
  if c ∈ s then s else s ++ [c]

/-- Function `toBucketSets` from `algorithm.ts`: converts the map representation to an
array of sets sized by the largest key; the loop
`for (const [bucket, flashcards] of buckets) bucketArray[bucket] = ...`
is the fold that assigns each entry into the array. -/
def toBucketSets (buckets : BucketMap) : List CardSet :=
  if buckets.length = 0 then []
  else
    let maxBucket := buckets.foldl (fun a p => max a p.1) 0
    buckets.foldl (fun arr p => arr.set p.1 p.2)
      (List.replicate (maxBucket + 1) ([] : CardSet))

/-- Function `practice` from `algorithm.ts`: for each bucket index `i` with
`day % (i + 1) === 0`, add all its cards to the review set. -/
def practice (buckets : List CardSet) (day : Nat) : CardSet :=
  buckets.enum.foldl
    (fun reviewSet p =>
      if day % (p.1 + 1) = 0 then p.2.foldl setAdd reviewSet else reviewSet)
    []

/-- The card-removal loop at the start of `update`: scan the entries in
order; in the first bucket whose set contains the card, delete the card and
record that bucket's number; `currentBucket` stays `0` when no bucket
contains the card. -/
def removeFromFirst : BucketMap → Flashcard → BucketMap × Nat
  | [], _ => ([], 0)
  | (k, s) :: rest, c =>
    if c ∈ s then ((k, s.erase c) :: rest, k)
    else
      let r := removeFromFirst rest c
      ((k, s) :: r.1, r.2)

/-- The statement `buckets.get(newBucket)!.add(card)`: add the card to the set stored at
key `k` (entries with other keys are untouched). -/
def bucketAdd (buckets : BucketMap) (k : Nat) (c : Flashcard) : BucketMap :=
  buckets.map (fun p => if p.1 = k then (p.1, setAdd p.2 c) else p)

/-- The test `buckets.has(k)` on the embedded map. -/
def hasKey (buckets : BucketMap) (k : Nat) : Bool :=
  buckets.any (fun p => p.1 == k)

/-- Function `update` from `algorithm.ts`.  `Math.max(0, newBucket)` in the source is
the identity here because bucket numbers are naturals and the computed target
is never negative. -/
def update (buckets : BucketMap) (card : Flashcard)
    (difficulty : AnswerDifficulty) : BucketMap :=
  let r := removeFromFirst buckets card
  let newBucket :=
    match difficulty with
    | AnswerDifficulty.Wrong => 0
    | AnswerDifficulty.Hard => r.2 + 1
    | AnswerDifficulty.Easy => r.2 + 2
  let withKey := if hasKey r.1 newBucket then r.1 else r.1 ++ [(newBucket, [])]
  bucketAdd withKey newBucket card

/-- The bucket a given difficulty sends a card to, from bucket `b`. -/
def targetBucket (b : Nat) : AnswerDifficulty → Nat
  | AnswerDifficulty.Wrong => 0
  | AnswerDifficulty.Hard => b + 1
  | AnswerDifficulty.Easy => b + 2

/-- Function `computeProgress` from `algorithm.ts`: one pass accumulating the total
number of cards and the number of cards in buckets at or above the threshold
`3`, then the guarded percentage.  JavaScript numeric division is embedded
in `ℚ`. -/
def computeProgress (buckets : BucketMap) : ℚ :=
  let acc := buckets.foldl
    (fun (a : Nat × Nat) p =>
      (a.1 + p.2.length, if p.1 ≥ 3 then a.2 + p.2.length else a.2))
    (0, 0)
  if acc.1 > 0 then ((acc.2 : ℚ) / (acc.1 : ℚ)) * 100 else 0

/-- Function `findCard` from `state.ts`: scan the buckets' sets in order and return
the first card whose front and back equal the given strings. -/
def findCard : BucketMap → String → String → Option Flashcard
  | [], _, _ => none
  | (_, s) :: rest, front, back =>
    match s.find? (fun c => c.front == front && c.back == back) with
    | some c => some c
    | none => findCard rest front back

/-! Spec-side observation functions, used to state the claims. -/

/-- Total number of cards in the store (the spec's `totalCards`). -/
def totalCards (buckets : BucketMap) : Nat :=
  (buckets.map (fun p => p.2.length)).sum

/-- Number of cards in buckets at or above the learning threshold `3`
(the spec's `cardsLearned`). -/
def cardsLearned (buckets : BucketMap) : Nat :=
  ((buckets.filter (fun p => 3 ≤ p.1)).map (fun p => p.2.length)).sum

/-- The card `c` is a member of bucket `k` of the store. -/
def cardIn (buckets : BucketMap) (k : Nat) (c : Flashcard) : Prop :=
  ∃ p ∈ buckets, p.1 = k ∧ c ∈ p.2

/-- Number of buckets whose set contains the card `c`. -/
def bucketCount (buckets : BucketMap) (c : Flashcard) : Nat :=
  buckets.countP (fun p => decide (c ∈ p.2))

/-- The set stored at key `i`, or the empty set when `i` is not a key. -/
def bucketOf (buckets : BucketMap) (i : Nat) : CardSet :=
  match buckets.find? (fun p => p.1 == i) with
  | some p => p.2
  | none => []

/-- Concrete cards used in witnesses and counterexamples. -/
def cardA : Flashcard := ⟨"qA", "aA", "hintA", []⟩

/-- A second concrete card. -/
def cardB : Flashcard := ⟨"qB", "aB", "hintB", []⟩

/-- A third concrete card. -/
def cardC : Flashcard := ⟨"qC", "aC", "hintC", []⟩

theorem mem_setAdd {s : CardSet} {c x : Flashcard} :
    x ∈ setAdd s c ↔ x ∈ s ∨ x = c := by
  unfold setAdd
  split
  · rename_i h
    constructor
    · exact Or.inl
    · rintro (hx | rfl)
      · exact hx
      · exact h
  · simp [List.mem_append]

theorem mem_foldl_setAdd (l : CardSet) (init : CardSet) (x : Flashcard) :
    x ∈ l.foldl setAdd init ↔ x ∈ init ∨ x ∈ l := by
  induction l generalizing init with
  | nil => simp
  | cons a l ih => simp [List.foldl_cons, ih, mem_setAdd, or_assoc]

theorem mem_practice_aux (l : List (Nat × CardSet)) (day : Nat) (init : CardSet)
    (x : Flashcard) :
    x ∈ l.foldl
        (fun reviewSet p =>
          if day % (p.1 + 1) = 0 then p.2.foldl setAdd reviewSet else reviewSet)
        init ↔
      x ∈ init ∨ ∃ p ∈ l, day % (p.1 + 1) = 0 ∧ x ∈ p.2 := by
  induction l generalizing init with
  | nil => simp
  | cons a l ih =>
    rw [List.foldl_cons, ih]
    by_cases h : day % (a.1 + 1) = 0
    · simp [h, mem_foldl_setAdd, or_assoc]
    · simp [h]

theorem mem_practice_iff (buckets : List CardSet) (day : Nat) (x : Flashcard) :
    x ∈ practice buckets day ↔
      ∃ i, ∃ h : i < buckets.length, day % (i + 1) = 0 ∧ x ∈ buckets[i] := by
  unfold practice
  rw [mem_practice_aux]
  simp only [List.not_mem_nil, false_or]
  constructor
  · rintro ⟨p, hp, hcond, hx⟩
    rw [List.mem_enum_iff_getElem?] at hp
    rcases List.getElem?_eq_some.1 hp with ⟨h, hget⟩
    exact ⟨p.1, h, hcond, hget ▸ hx⟩
  · rintro ⟨i, h, hcond, hx⟩
    refine ⟨(i, buckets[i]), ?_, hcond, hx⟩
    rw [List.mem_enum_iff_getElem?]
    exact List.getElem?_eq_some.2 ⟨h, rfl⟩

/-- C4: `practice` returns exactly the cards lying in some bucket `i` with
`day % (i + 1) = 0`; every card of bucket 0 is due on every day, and an
empty store yields an empty due set. -/
theorem practice_due_set (buckets : List CardSet) (day : Nat) (c : Flashcard) :
    (c ∈ practice buckets day ↔
      ∃ i, ∃ h : i < buckets.length, day % (i + 1) = 0 ∧ c ∈ buckets[i]) ∧
    (∀ h0 : 0 < buckets.length, c ∈ buckets[0] → c ∈ practice buckets day) ∧
    practice [] day = [] := by
  refine ⟨mem_practice_iff buckets day c, ?_, rfl⟩
  intro h0 hc
  exact (mem_practice_iff buckets day c).2 ⟨0, h0, Nat.mod_one day, hc⟩

/-- Witness for C4 at a concrete store and day. -/
theorem practice_due_set_witness :
    cardA ∈ practice [[cardA], [cardB]] 3 :=
  (practice_due_set [[cardA], [cardB]] 3 cardA).2.1 (by decide) (by decide)

theorem progress_foldl (m : BucketMap) (a b : Nat) :
    m.foldl
        (fun (acc : Nat × Nat) p =>
          (acc.1 + p.2.length, if p.1 ≥ 3 then acc.2 + p.2.length else acc.2))
        (a, b) =
      (a + totalCards m, b + cardsLearned m) := by
  induction m generalizing a b with
  | nil => simp [totalCards, cardsLearned]
  | cons p m ih =>
    rw [List.foldl_cons]
    by_cases h : 3 ≤ p.1
    · simp only [ge_iff_le, h, if_true, ih]
      simp [totalCards, cardsLearned, List.filter_cons, h, Prod.ext_iff]
      constructor <;> omega
    · simp only [ge_iff_le, h, if_false, ih]
      simp [totalCards, cardsLearned, List.filter_cons, h, Prod.ext_iff]
      omega

/-- C6: when the store holds zero cards, `computeProgress` takes the guarded
branch and returns `0` without dividing. -/
theorem computeProgress_zero_total (m : BucketMap) (h : totalCards m = 0) :
    computeProgress m = 0 := by
  unfold computeProgress
  rw [progress_foldl]
  simp [h]

/-- Witness for C6: the empty store has zero cards and progress `0`. -/
theorem computeProgress_zero_total_witness :
    totalCards ([] : BucketMap) = 0 ∧ computeProgress ([] : BucketMap) = 0 :=
  ⟨rfl, computeProgress_zero_total [] rfl⟩

/-- C2 (amended): `computeProgress` returns a single number, the completion
percentage `cardsLearned / totalCards * 100` (with learning threshold 3),
and `0` when the store holds no cards; it does not return a record. -/
theorem computeProgress_returns_percentage (m : BucketMap) :
    computeProgress m =
      if 0 < totalCards m then ((cardsLearned m : ℚ) / (totalCards m : ℚ)) * 100
      else 0 := by
  unfold computeProgress
  rw [progress_foldl]
  simp

/-- C2 counterexample: two stores with different `totalCards` (1 and 2 cards)
on which `computeProgress` returns the same value, so the return value of
`computeProgress` cannot contain `totalCards` (it is not the claimed
statistics record). -/
theorem computeProgress_not_a_record :
    computeProgress [(0, [cardA])] = computeProgress [(0, [cardA, cardB])] ∧
    totalCards [(0, [cardA])] ≠ totalCards [(0, [cardA, cardB])] := by
  constructor
  · norm_num [computeProgress]
  · decide

theorem hasKey_iff (m : BucketMap) (k : Nat) :
    hasKey m k = true ↔ ∃ p ∈ m, p.1 = k := by
  simp [hasKey]

theorem removeFromFirst_absent (m : BucketMap) (c : Flashcard)
    (h : ∀ p ∈ m, c ∉ p.2) : removeFromFirst m c = (m, 0) := by
  induction m with
  | nil => rfl
  | cons p m ih =>
    have hp : c ∉ p.2 := h p (List.mem_cons_self p m)
    cases p with
    | mk k s =>
      simp only [removeFromFirst, if_neg hp,
        ih (fun q hq => h q (List.mem_cons_of_mem _ hq))]

theorem removeFromFirst_found (m₁ m₂ : BucketMap) (b : Nat) (s : CardSet)
    (c : Flashcard) (h : ∀ p ∈ m₁, c ∉ p.2) (hc : c ∈ s) :
    removeFromFirst (m₁ ++ (b, s) :: m₂) c = (m₁ ++ (b, s.erase c) :: m₂, b) := by
  induction m₁ with
  | nil => simp only [List.nil_append, removeFromFirst, if_pos hc]
  | cons p m₁ ih =>
    have hp : c ∉ p.2 := h p (List.mem_cons_self p m₁)
    cases p with
    | mk k t =>
      simp only [List.cons_append, removeFromFirst, if_neg hp, List.append_eq]
      rw [ih (fun q hq => h q (List.mem_cons_of_mem _ hq))]

theorem update_eq (m : BucketMap) (c : Flashcard) (d : AnswerDifficulty) :
    update m c d =
      bucketAdd
        (if hasKey (removeFromFirst m c).1 (targetBucket (removeFromFirst m c).2 d)
         then (removeFromFirst m c).1
         else (removeFromFirst m c).1 ++
           [(targetBucket (removeFromFirst m c).2 d, [])])
        (targetBucket (removeFromFirst m c).2 d) c := by
  cases d <;> rfl

theorem cardIn_bucketAdd {m : BucketMap} {t k : Nat} {c x : Flashcard} :
    cardIn (bucketAdd m t c) k x ↔
      cardIn m k x ∨ (k = t ∧ x = c ∧ hasKey m t = true) := by
  unfold cardIn bucketAdd
  constructor
  · rintro ⟨p, hp, hk, hx⟩
    rcases List.mem_map.1 hp with ⟨q, hq, hpq⟩
    by_cases h : q.1 = t
    · rw [if_pos h] at hpq
      subst hpq
      rcases mem_setAdd.1 hx with hxs | rfl
      · exact Or.inl ⟨q, hq, hk, hxs⟩
      · exact Or.inr ⟨by rw [← hk, h], rfl, (hasKey_iff m t).2 ⟨q, hq, h⟩⟩
    · rw [if_neg h] at hpq
      subst hpq
      exact Or.inl ⟨q, hq, hk, hx⟩
  · rintro (⟨p, hp, hk, hx⟩ | ⟨hkt, hxc, hkey⟩)
    · by_cases h : p.1 = t
      · refine ⟨(p.1, setAdd p.2 c), List.mem_map.2 ⟨p, hp, by rw [if_pos h]⟩,
          hk, mem_setAdd.2 (Or.inl hx)⟩
      · exact ⟨p, List.mem_map.2 ⟨p, hp, by rw [if_neg h]⟩, hk, hx⟩
    · rcases (hasKey_iff m t).1 hkey with ⟨p, hp, hpt⟩
      exact ⟨(p.1, setAdd p.2 c), List.mem_map.2 ⟨p, hp, by rw [if_pos hpt]⟩,
        hpt.trans hkt.symm, mem_setAdd.2 (Or.inr hxc)⟩

theorem cardIn_append_empty {m : BucketMap} {t k : Nat} {x : Flashcard} :
    cardIn (m ++ [(t, [])]) k x ↔ cardIn m k x := by
  unfold cardIn
  constructor
  · rintro ⟨p, hp, hk, hx⟩
    rcases List.mem_append.1 hp with hm | hone
    · exact ⟨p, hm, hk, hx⟩
    · rw [List.mem_singleton] at hone
      subst hone
      exact absurd hx (List.not_mem_nil x)
  · rintro ⟨p, hp, hk, hx⟩
    exact ⟨p, List.mem_append_left _ hp, hk, hx⟩

theorem hasKey_append_self (m : BucketMap) (t : Nat) :
    hasKey (m ++ [(t, [])]) t = true := by
  simp [hasKey]

theorem cardIn_update_absent (m : BucketMap) (c : Flashcard)
    (d : AnswerDifficulty) (h : ∀ p ∈ m, c ∉ p.2) (k : Nat) (x : Flashcard) :
    cardIn (update m c d) k x ↔
      cardIn m k x ∨ (k = targetBucket 0 d ∧ x = c) := by
  rw [update_eq, removeFromFirst_absent m c h]
  by_cases hk : hasKey m (targetBucket 0 d) = true
  · rw [if_pos hk, cardIn_bucketAdd]
    simp [hk]
  · rw [if_neg hk, cardIn_bucketAdd, cardIn_append_empty,
      hasKey_append_self]
    simp

/-- C1 (amended): when the given card is absent from every bucket, `update`
removes nothing (every existing membership is preserved), but it is not a
no-op: the card itself is inserted into the bucket the outcome maps bucket 0
to (0 for Wrong, 1 for Hard, 2 for Easy). -/
theorem update_absent_no_removal (m : BucketMap) (c : Flashcard)
    (d : AnswerDifficulty) (h : ∀ p ∈ m, c ∉ p.2) :
    (∀ k x, cardIn m k x → cardIn (update m c d) k x) ∧
    cardIn (update m c d) (targetBucket 0 d) c := by
  constructor
  · intro k x hx
    exact (cardIn_update_absent m c d h k x).2 (Or.inl hx)
  · exact (cardIn_update_absent m c d h _ c).2 (Or.inr ⟨rfl, rfl⟩)

/-- Witness for C1 (amended) at a concrete store and card. -/
theorem update_absent_no_removal_witness :
    cardIn (update [(0, [cardB])] cardA AnswerDifficulty.Hard)
      (targetBucket 0 AnswerDifficulty.Hard) cardA :=
  (update_absent_no_removal [(0, [cardB])] cardA AnswerDifficulty.Hard
    (by decide)).2

/-- C1 counterexample: `update` with a card that is in no bucket does mutate
the store: on the empty store the result is a nonempty map. -/
theorem update_absent_mutates :
    update ([] : BucketMap) cardA AnswerDifficulty.Wrong ≠ ([] : BucketMap) := by
  decide

/-- C9: `update` with a card absent from every bucket inserts it anyway,
into bucket 0 for Wrong, 1 for Hard and 2 for Easy (the absent card is
treated as coming from bucket 0); all other memberships are exactly
preserved. -/
theorem update_absent_inserts (m : BucketMap) (c : Flashcard)
    (d : AnswerDifficulty) (h : ∀ p ∈ m, c ∉ p.2) :
    cardIn (update m c d)
      (match d with
       | AnswerDifficulty.Wrong => 0
       | AnswerDifficulty.Hard => 1
       | AnswerDifficulty.Easy => 2) c ∧
    ∀ k x, cardIn (update m c d) k x ↔
      cardIn m k x ∨ (k = targetBucket 0 d ∧ x = c) := by
  constructor
  · have ht : (match d with
        | AnswerDifficulty.Wrong => 0
        | AnswerDifficulty.Hard => 1
        | AnswerDifficulty.Easy => 2) = targetBucket 0 d := by
      cases d <;> rfl
    rw [ht]
    exact (cardIn_update_absent m c d h _ c).2 (Or.inr ⟨rfl, rfl⟩)
  · exact fun k x => cardIn_update_absent m c d h k x

/-- Witness for C9 at a concrete store and card. -/
theorem update_absent_inserts_witness :
    cardIn (update ([] : BucketMap) cardA AnswerDifficulty.Easy) 2 cardA :=
  (update_absent_inserts [] cardA AnswerDifficulty.Easy (by decide)).1

theorem hasKey_bucketAdd (m : BucketMap) (t k : Nat) (c : Flashcard) :
    hasKey (bucketAdd m t c) k = hasKey m k := by
  rw [Bool.eq_iff_iff, hasKey_iff, hasKey_iff]
  constructor
  · rintro ⟨p, hp, hk⟩
    rcases List.mem_map.1 hp with ⟨q, hq, hpq⟩
    by_cases h : q.1 = t
    · rw [if_pos h] at hpq
      subst hpq
      exact ⟨q, hq, hk⟩
    · rw [if_neg h] at hpq
      subst hpq
      exact ⟨q, hq, hk⟩
  · rintro ⟨p, hp, hk⟩
    by_cases h : p.1 = t
    · exact ⟨(p.1, setAdd p.2 c), List.mem_map.2 ⟨p, hp, by rw [if_pos h]⟩, hk⟩
    · exact ⟨p, List.mem_map.2 ⟨p, hp, by rw [if_neg h]⟩, hk⟩

theorem update_eq2 (m : BucketMap) (c : Flashcard) (d : AnswerDifficulty)
    (m' : BucketMap) (cur : Nat) (hr : removeFromFirst m c = (m', cur)) :
    update m c d =
      bucketAdd
        (if hasKey m' (targetBucket cur d) then m'
         else m' ++ [(targetBucket cur d, [])])
        (targetBucket cur d) c := by
  rw [update_eq, hr]

theorem cardIn_append_cons (m₁ m₂ : BucketMap) (e : Nat × CardSet) (k : Nat)
    (x : Flashcard) :
    cardIn (m₁ ++ e :: m₂) k x ↔
      cardIn m₁ k x ∨ (e.1 = k ∧ x ∈ e.2) ∨ cardIn m₂ k x := by
  unfold cardIn
  constructor
  · rintro ⟨p, hp, hk, hx⟩
    rcases List.mem_append.1 hp with h1 | h2
    · exact Or.inl ⟨p, h1, hk, hx⟩
    · rcases List.mem_cons.1 h2 with rfl | h3
      · exact Or.inr (Or.inl ⟨hk, hx⟩)
      · exact Or.inr (Or.inr ⟨p, h3, hk, hx⟩)
  · rintro (⟨p, hp, hk, hx⟩ | ⟨hek, hex⟩ | ⟨p, hp, hk, hx⟩)
    · exact ⟨p, List.mem_append_left _ hp, hk, hx⟩
    · exact ⟨e, List.mem_append_right _ (List.mem_cons_self e m₂), hek, hex⟩
    · exact ⟨p, List.mem_append_right _ (List.mem_cons_of_mem _ hp), hk, hx⟩

theorem exists_decomp (m : BucketMap) (b : Nat) (c : Flashcard)
    (hk : (m.map Prod.fst).Nodup) (hb : cardIn m b c)
    (honly : ∀ p ∈ m, c ∈ p.2 → p.1 = b) :
    ∃ m₁ s m₂, m = m₁ ++ (b, s) :: m₂ ∧ c ∈ s ∧
      (∀ p ∈ m₁, c ∉ p.2) ∧ (∀ p ∈ m₁ ++ m₂, p.1 ≠ b) ∧
      (∀ p ∈ m₂, c ∉ p.2) := by
  obtain ⟨p, hp, hpb, hpc⟩ := hb
  obtain ⟨m₁, m₂, rfl⟩ := List.append_of_mem hp
  have hmap : (p.1 :: (m₁.map Prod.fst ++ m₂.map Prod.fst)).Nodup := by
    rw [← List.nodup_middle]
    simpa [List.map_append] using hk
  have hnotin : p.1 ∉ m₁.map Prod.fst ++ m₂.map Prod.fst :=
    (List.nodup_cons.1 hmap).1
  have hkeys : ∀ q ∈ m₁ ++ m₂, q.1 ≠ b := by
    intro q hq hqb
    apply hnotin
    have hmem : q.1 ∈ (m₁ ++ m₂).map Prod.fst := List.mem_map_of_mem Prod.fst hq
    rw [hqb, ← hpb] at hmem
    rw [← List.map_append]
    exact hmem
  refine ⟨m₁, p.2, m₂, ?_, hpc, ?_, hkeys, ?_⟩
  · rw [← hpb]
  · intro q hq hqc
    exact hkeys q (List.mem_append_left _ hq)
      (honly q (List.mem_append_left _ hq) hqc)
  · intro q hq hqc
    exact hkeys q (List.mem_append_right _ hq)
      (honly q (List.mem_append_right _ (List.mem_cons_of_mem _ hq)) hqc)

theorem cardIn_update_found (m : BucketMap) (c : Flashcard)
    (d : AnswerDifficulty) (b : Nat) (hk : (m.map Prod.fst).Nodup)
    (hs : ∀ p ∈ m, p.2.Nodup) (hb : cardIn m b c)
    (honly : ∀ p ∈ m, c ∈ p.2 → p.1 = b) (k : Nat) (x : Flashcard) :
    cardIn (update m c d) k x ↔
      (k = targetBucket b d ∧ x = c) ∨
      (cardIn m k x ∧ ¬(x = c ∧ k = b)) := by
  obtain ⟨m₁, s, m₂, rfl, hcs, h1, hnotb, h2⟩ := exists_decomp m b c hk hb honly
  have hsnd : s.Nodup :=
    hs (b, s) (List.mem_append_right _ (List.mem_cons_self _ _))
  have hrem := removeFromFirst_found m₁ m₂ b s c h1 hcs
  rw [update_eq2 _ c d _ b hrem]
  have hbasechar : ∀ k x, cardIn (m₁ ++ (b, s.erase c) :: m₂) k x ↔
      cardIn (m₁ ++ (b, s) :: m₂) k x ∧ ¬(x = c ∧ k = b) := by
    intro k x
    rw [cardIn_append_cons, cardIn_append_cons]
    constructor
    · rintro (hm1 | ⟨hbk, hxe⟩ | hm2)
      · refine ⟨Or.inl hm1, ?_⟩
        rintro ⟨rfl, rfl⟩
        obtain ⟨q, hq, hqk, hqx⟩ := hm1
        exact h1 q hq hqx
      · have hxs : x ≠ c ∧ x ∈ s := (List.Nodup.mem_erase_iff hsnd).1 hxe
        refine ⟨Or.inr (Or.inl ⟨hbk, hxs.2⟩), ?_⟩
        rintro ⟨rfl, _⟩
        exact hxs.1 rfl
      · refine ⟨Or.inr (Or.inr hm2), ?_⟩
        rintro ⟨rfl, rfl⟩
        obtain ⟨q, hq, hqk, hqx⟩ := hm2
        exact h2 q hq hqx
    · rintro ⟨hm1 | ⟨hbk, hxs⟩ | hm2, hnc⟩
      · exact Or.inl hm1
      · refine Or.inr (Or.inl ⟨hbk, (List.Nodup.mem_erase_iff hsnd).2 ⟨?_, hxs⟩⟩)
        intro hxc
        exact hnc ⟨hxc, hbk.symm⟩
      · exact Or.inr (Or.inr hm2)
  by_cases hkb :
      hasKey (m₁ ++ (b, s.erase c) :: m₂) (targetBucket b d) = true
  · rw [if_pos hkb, cardIn_bucketAdd, hbasechar]
    tauto
  · rw [if_neg hkb, cardIn_bucketAdd, cardIn_append_empty, hasKey_append_self,
      hbasechar]
    tauto

/-- C3: when the card sits in exactly one bucket `b`, `update` removes it
from `b` and inserts it into bucket 0 for Wrong, `b + 1` for Hard and
`b + 2` for Easy, and the target bucket exists in the result (it is created
when absent). -/
theorem update_moves_card (m : BucketMap) (c : Flashcard)
    (d : AnswerDifficulty) (b : Nat) (hk : (m.map Prod.fst).Nodup)
    (hs : ∀ p ∈ m, p.2.Nodup) (hb : cardIn m b c)
    (honly : ∀ p ∈ m, c ∈ p.2 → p.1 = b) :
    cardIn (update m c d)
      (match d with
       | AnswerDifficulty.Wrong => 0
       | AnswerDifficulty.Hard => b + 1
       | AnswerDifficulty.Easy => b + 2) c ∧
    (b ≠ targetBucket b d → ¬ cardIn (update m c d) b c) ∧
    hasKey (update m c d) (targetBucket b d) = true := by
  have ht : (match d with
      | AnswerDifficulty.Wrong => 0
      | AnswerDifficulty.Hard => b + 1
      | AnswerDifficulty.Easy => b + 2) = targetBucket b d := by
    cases d <;> rfl
  refine ⟨?_, ?_, ?_⟩
  · rw [ht]
    exact (cardIn_update_found m c d b hk hs hb honly _ c).2 (Or.inl ⟨rfl, rfl⟩)
  · intro hne hcontra
    rcases (cardIn_update_found m c d b hk hs hb honly b c).1 hcontra with
      ⟨hbt, _⟩ | ⟨_, hno⟩
    · exact hne hbt
    · exact hno ⟨rfl, rfl⟩
  · obtain ⟨m₁, s, m₂, rfl, hcs, h1, hnotb, h2⟩ :=
      exists_decomp m b c hk hb honly
    have hrem := removeFromFirst_found m₁ m₂ b s c h1 hcs
    rw [update_eq2 _ c d _ b hrem, hasKey_bucketAdd]
    by_cases hkb :
        hasKey (m₁ ++ (b, s.erase c) :: m₂) (targetBucket b d) = true
    · rw [if_pos hkb]
      exact hkb
    · rw [if_neg hkb]
      exact hasKey_append_self _ _

/-- Witness for C3 at a concrete two-bucket store. -/
theorem update_moves_card_witness :
    cardIn (update [(0, [cardA]), (1, [cardB])] cardB AnswerDifficulty.Easy)
      3 cardB :=
  (update_moves_card [(0, [cardA]), (1, [cardB])] cardB AnswerDifficulty.Easy 1
    (by decide) (by decide) ⟨(1, [cardB]), by decide, rfl, by decide⟩
    (by decide)).1

/-- C10: when the card sits in exactly one bucket `b`, every bucket other
than `b` and the target bucket keeps exactly its previous members, and the
key `b` itself stays in the map rather than being deleted. -/
theorem update_frame (m : BucketMap) (c : Flashcard) (d : AnswerDifficulty)
    (b : Nat) (hk : (m.map Prod.fst).Nodup) (hs : ∀ p ∈ m, p.2.Nodup)
    (hb : cardIn m b c) (honly : ∀ p ∈ m, c ∈ p.2 → p.1 = b) :
    (∀ k, k ≠ b → k ≠ targetBucket b d →
      ∀ x, (cardIn (update m c d) k x ↔ cardIn m k x)) ∧
    hasKey (update m c d) b = true := by
  constructor
  · intro k hkb hkt x
    rw [cardIn_update_found m c d b hk hs hb honly k x]
    constructor
    · rintro (⟨rfl, _⟩ | ⟨hm, _⟩)
      · exact absurd rfl hkt
      · exact hm
    · intro hm
      exact Or.inr ⟨hm, fun hcon => hkb hcon.2⟩
  · obtain ⟨m₁, s, m₂, rfl, hcs, h1, hnotb, h2⟩ :=
      exists_decomp m b c hk hb honly
    have hrem := removeFromFirst_found m₁ m₂ b s c h1 hcs
    rw [update_eq2 _ c d _ b hrem, hasKey_bucketAdd]
    by_cases hkb :
        hasKey (m₁ ++ (b, s.erase c) :: m₂) (targetBucket b d) = true
    · rw [if_pos hkb]
      exact (hasKey_iff _ b).2
        ⟨(b, s.erase c), List.mem_append_right _ (List.mem_cons_self _ _), rfl⟩
    · rw [if_neg hkb]
      exact (hasKey_iff _ b).2
        ⟨(b, s.erase c),
          List.mem_append_left _
            (List.mem_append_right _ (List.mem_cons_self _ _)), rfl⟩

/-- Witness for C10: the untouched bucket 0 keeps its card and key 1 stays. -/
theorem update_frame_witness :
    cardIn (update [(0, [cardA]), (1, [cardB])] cardB AnswerDifficulty.Easy)
      0 cardA :=
  ((update_frame [(0, [cardA]), (1, [cardB])] cardB AnswerDifficulty.Easy 1
      (by decide) (by decide) ⟨(1, [cardB]), by decide, rfl, by decide⟩
      (by decide)).1 0 (by decide) (by decide) cardA).2
    ⟨(0, [cardA]), by decide, rfl, by decide⟩

theorem bucketCount_eq_zero_iff (m : BucketMap) (c : Flashcard) :
    bucketCount m c = 0 ↔ ∀ p ∈ m, c ∉ p.2 := by
  unfold bucketCount
  rw [List.countP_eq_zero]
  simp

theorem removeFromFirst_count (m : BucketMap) (c : Flashcard)
    (hs : ∀ p ∈ m, p.2.Nodup) (hc : bucketCount m c ≤ 1) :
    bucketCount (removeFromFirst m c).1 c = 0 ∧
    (∀ x, x ≠ c → bucketCount (removeFromFirst m c).1 x = bucketCount m x) ∧
    (removeFromFirst m c).1.map Prod.fst = m.map Prod.fst := by
  induction m with
  | nil => exact ⟨rfl, fun x _ => rfl, rfl⟩
  | cons p m ih =>
    cases p with
    | mk k s =>
      by_cases hcm : c ∈ s
      · have hif : (fun q : Nat × CardSet => decide (c ∈ q.2)) (k, s) = true :=
          decide_eq_true hcm
        have hcount : bucketCount m c = 0 := by
          unfold bucketCount at hc
          rw [List.countP_cons, if_pos hif] at hc
          unfold bucketCount
          omega
        have hsnd : s.Nodup := hs (k, s) (List.mem_cons_self _ _)
        have hnem : c ∉ s.erase c := fun hcon =>
          ((List.Nodup.mem_erase_iff hsnd).1 hcon).1 rfl
        simp only [removeFromFirst, if_pos hcm]
        refine ⟨?_, ?_, ?_⟩
        · unfold bucketCount
          rw [List.countP_cons, if_neg (by simpa using hnem)]
          have hq := hcount
          unfold bucketCount at hq
          omega
        · intro x hx
          unfold bucketCount
          rw [List.countP_cons, List.countP_cons,
            show decide (x ∈ s.erase c) = decide (x ∈ s) from
              decide_eq_decide.2 (List.mem_erase_of_ne hx)]
        · rfl
      · have hif : ¬((fun q : Nat × CardSet => decide (c ∈ q.2)) (k, s) = true) := by
          simpa using hcm
        have hc' : bucketCount m c ≤ 1 := by
          unfold bucketCount at hc
          rw [List.countP_cons, if_neg hif] at hc
          unfold bucketCount
          omega
        obtain ⟨ih1, ih2, ih3⟩ :=
          ih (fun q hq => hs q (List.mem_cons_of_mem _ hq)) hc'
        simp only [removeFromFirst, if_neg hcm]
        refine ⟨?_, ?_, ?_⟩
        · unfold bucketCount
          rw [List.countP_cons, if_neg hif]
          have hq := ih1
          unfold bucketCount at hq
          omega
        · intro x hx
          unfold bucketCount
          rw [List.countP_cons, List.countP_cons]
          have hq := ih2 x hx
          unfold bucketCount at hq
          omega
        · rw [List.map_cons, List.map_cons, ih3]

theorem bucketCount_bucketAdd_ne (w : BucketMap) (t : Nat) (c x : Flashcard)
    (hx : x ≠ c) : bucketCount (bucketAdd w t c) x = bucketCount w x := by
  unfold bucketCount bucketAdd
  rw [List.countP_map]
  apply List.countP_congr
  intro p _
  by_cases h : p.1 = t
  · simp [h, Function.comp, mem_setAdd, hx]
  · simp [h, Function.comp]

theorem bucketCount_bucketAdd_self (w : BucketMap) (t : Nat) (c : Flashcard)
    (h0 : bucketCount w c = 0) :
    bucketCount (bucketAdd w t c) c = w.countP (fun p => p.1 == t) := by
  unfold bucketCount bucketAdd
  rw [List.countP_map]
  apply List.countP_congr
  intro p hp
  have hnc : c ∉ p.2 := (bucketCount_eq_zero_iff w c).1 h0 p hp
  by_cases h : p.1 = t
  · simp [h, Function.comp, mem_setAdd, hnc]
  · simp [h, Function.comp, hnc]

theorem countP_key_le_one (w : BucketMap) (t : Nat)
    (hk : (w.map Prod.fst).Nodup) : w.countP (fun p => p.1 == t) ≤ 1 := by
  have h := List.nodup_iff_count_le_one.1 hk t
  rw [List.count_eq_countP, List.countP_map] at h
  exact h

/-- C5: `update` preserves the exclusivity invariant: if every card lies in
at most one bucket of a well-formed store, then after any `update` every
card still lies in at most one bucket. -/
theorem update_preserves_exclusivity (m : BucketMap) (c : Flashcard)
    (d : AnswerDifficulty) (hk : (m.map Prod.fst).Nodup)
    (hs : ∀ p ∈ m, p.2.Nodup) (hx : ∀ x, bucketCount m x ≤ 1) :
    ∀ x, bucketCount (update m c d) x ≤ 1 := by
  intro x
  obtain ⟨h0, hne, hkeys⟩ := removeFromFirst_count m c hs (hx c)
  rcases hr : removeFromFirst m c with ⟨m', cur⟩
  rw [hr] at h0 hne hkeys
  rw [update_eq2 m c d m' cur hr]
  by_cases hsk : hasKey m' (targetBucket cur d) = true
  · rw [if_pos hsk]
    by_cases hxc : x = c
    · subst hxc
      rw [bucketCount_bucketAdd_self m' _ x h0]
      exact countP_key_le_one m' _ (by rw [hkeys]; exact hk)
    · rw [bucketCount_bucketAdd_ne m' _ c x hxc, hne x hxc]
      exact hx x
  · rw [if_neg hsk]
    by_cases hxc : x = c
    · subst hxc
      have h0' : bucketCount (m' ++ [(targetBucket cur d, [])]) x = 0 := by
        unfold bucketCount at h0 ⊢
        rw [List.countP_append]
        simp [h0]
      rw [bucketCount_bucketAdd_self _ _ x h0', List.countP_append]
      have hm0 : m'.countP (fun p => p.1 == targetBucket cur d) = 0 := by
        rw [List.countP_eq_zero]
        intro p hp
        simp only [beq_iff_eq]
        intro hpt
        exact absurd ((hasKey_iff m' _).2 ⟨p, hp, hpt⟩) (by simp [hsk])
      simp [hm0]
    · rw [bucketCount_bucketAdd_ne _ _ c x hxc]
      have : bucketCount (m' ++ [(targetBucket cur d, [])]) x =
          bucketCount m' x := by
        unfold bucketCount
        rw [List.countP_append]
        simp
      rw [this, hne x hxc]
      exact hx x

/-- Witness for C5 at a concrete one-bucket store. -/
theorem update_preserves_exclusivity_witness :
    bucketCount (update [(0, [cardA])] cardA AnswerDifficulty.Hard) cardA ≤ 1 :=
  update_preserves_exclusivity [(0, [cardA])] cardA AnswerDifficulty.Hard
    (by decide) (by decide)
    (fun x => by
      unfold bucketCount
      rw [List.countP_cons, List.countP_nil]
      split <;> decide)
    cardA

theorem foldl_set_length (m : BucketMap) :
    ∀ init : List CardSet,
      (m.foldl (fun arr p => arr.set p.1 p.2) init).length = init.length := by
  induction m with
  | nil => intro init; rfl
  | cons p m ih =>
    intro init
    rw [List.foldl_cons, ih, List.length_set]

theorem foldl_max_le (m : BucketMap) :
    ∀ a : Nat, a ≤ m.foldl (fun x q => max x q.1) a := by
  induction m with
  | nil => intro a; exact Nat.le_refl a
  | cons p m ih =>
    intro a
    rw [List.foldl_cons]
    exact le_trans (Nat.le_max_left a p.1) (ih _)

theorem foldl_max_mem (m : BucketMap) (a : Nat) :
    ∀ p ∈ m, p.1 ≤ m.foldl (fun x q => max x q.1) a := by
  induction m generalizing a with
  | nil => intro p hp; exact absurd hp (List.not_mem_nil p)
  | cons q m ih =>
    intro p hp
    rw [List.foldl_cons]
    rcases List.mem_cons.1 hp with rfl | h
    · exact le_trans (Nat.le_max_right a p.1) (foldl_max_le m _)
    · exact ih _ p h

theorem foldl_set_getElem?_notmem (m : BucketMap) :
    ∀ (init : List CardSet) (i : Nat), (∀ p ∈ m, p.1 ≠ i) →
      (m.foldl (fun arr p => arr.set p.1 p.2) init)[i]? = init[i]? := by
  induction m with
  | nil => intro init i _; rfl
  | cons p m ih =>
    intro init i h
    rw [List.foldl_cons, ih _ i (fun q hq => h q (List.mem_cons_of_mem _ hq)),
      List.getElem?_set, if_neg (h p (List.mem_cons_self _ _))]

theorem foldl_set_getElem?_mem (m : BucketMap) :
    ∀ (init : List CardSet) (b : Nat) (s : CardSet),
      (m.map Prod.fst).Nodup → (b, s) ∈ m → b < init.length →
      (m.foldl (fun arr p => arr.set p.1 p.2) init)[b]? = some s := by
  induction m with
  | nil => intro init b s _ hmem _; exact absurd hmem (List.not_mem_nil _)
  | cons p m ih =>
    intro init b s hk hmem hb
    rw [List.foldl_cons]
    rcases List.mem_cons.1 hmem with heq | h
    · have hknot : ∀ q ∈ m, q.1 ≠ b := by
        intro q hq hqb
        have hnotin : p.1 ∉ m.map Prod.fst :=
          (List.nodup_cons.1 (by simpa using hk)).1
        apply hnotin
        have hpb : p.1 = b := by rw [← heq]
        rw [hpb]
        exact hqb ▸ List.mem_map_of_mem Prod.fst hq
      rw [foldl_set_getElem?_notmem m _ b hknot, List.getElem?_set, ← heq,
        if_pos rfl, if_pos hb]
    · exact ih _ b s (List.nodup_cons.1 (by simpa using hk)).2 h
        (by rw [List.length_set]; exact hb)

theorem find?_key (m : BucketMap) (i : Nat) :
    ∀ s : CardSet, (m.map Prod.fst).Nodup → (i, s) ∈ m →
      m.find? (fun p => p.1 == i) = some (i, s) := by
  induction m with
  | nil => intro s _ hmem; exact absurd hmem (List.not_mem_nil _)
  | cons p m ih =>
    intro s hk hmem
    rcases List.mem_cons.1 hmem with heq | h
    · rw [← heq, List.find?_cons_of_pos _ (by simp)]
    · have hpi : ¬(p.1 == i) = true := by
        simp only [beq_iff_eq]
        intro hpi
        have hnotin : p.1 ∉ m.map Prod.fst :=
          (List.nodup_cons.1 (by simpa using hk)).1
        apply hnotin
        rw [hpi]
        exact List.mem_map_of_mem Prod.fst h
      rw [List.find?_cons_of_neg (p := fun q => q.1 == i) m hpi]
      exact ih s (List.nodup_cons.1 (by simpa using hk)).2 h

/-- C7: `toBucketSets` produces an array whose entry at each index `i` is
the set of cards in bucket `i` (the empty set when `i` is not a key of the
map), every key of the map is a valid index, and `practice` on the result
sees exactly the bucket contents of the map. -/
theorem toBucketSets_spec (m : BucketMap) (hk : (m.map Prod.fst).Nodup) :
    (∀ i, ∀ hi : i < (toBucketSets m).length,
      (toBucketSets m)[i] = bucketOf m i) ∧
    (∀ p ∈ m, p.1 < (toBucketSets m).length) ∧
    (∀ c day, c ∈ practice (toBucketSets m) day ↔
      ∃ p ∈ m, day % (p.1 + 1) = 0 ∧ c ∈ p.2) := by
  by_cases hm : m.length = 0
  · have hnil : m = [] := List.length_eq_zero.1 hm
    subst hnil
    refine ⟨?_, ?_, ?_⟩
    · intro i hi
      simp [toBucketSets] at hi
    · intro p hp
      exact absurd hp (List.not_mem_nil p)
    · intro c day
      constructor
      · intro h
        rw [show toBucketSets [] = [] from rfl] at h
        exact absurd h (by simp [practice])
      · rintro ⟨p, hp, _⟩
        exact absurd hp (List.not_mem_nil p)
  · have htb : toBucketSets m =
        m.foldl (fun arr p => arr.set p.1 p.2)
          (List.replicate (m.foldl (fun a p => max a p.1) 0 + 1)
            ([] : CardSet)) := by
      unfold toBucketSets
      rw [if_neg hm]
    have hlen : (toBucketSets m).length =
        m.foldl (fun a p => max a p.1) 0 + 1 := by
      rw [htb, foldl_set_length, List.length_replicate]
    have hkey_lt : ∀ p ∈ m, p.1 < (toBucketSets m).length := by
      intro p hp
      rw [hlen]
      exact Nat.lt_succ_of_le (foldl_max_mem m 0 p hp)
    have helem : ∀ i, i < (toBucketSets m).length →
        (toBucketSets m)[i]? = some (bucketOf m i) := by
      intro i hi
      have hirep : i < (List.replicate
          (m.foldl (fun a p => max a p.1) 0 + 1) ([] : CardSet)).length := by
        rw [List.length_replicate, ← hlen]
        exact hi
      by_cases hex : ∃ s, (i, s) ∈ m
      · obtain ⟨s, hs⟩ := hex
        rw [htb, foldl_set_getElem?_mem m _ i s hk hs hirep]
        unfold bucketOf
        rw [find?_key m i s hk hs]
      · push_neg at hex
        have hni : ∀ p ∈ m, p.1 ≠ i := by
          intro p hp hpi
          apply hex p.2
          rw [← hpi]
          exact hp
        rw [htb, foldl_set_getElem?_notmem m _ i hni, List.getElem?_replicate,
          if_pos (by rw [List.length_replicate] at hirep; exact hirep)]
        unfold bucketOf
        rw [List.find?_eq_none.2 (fun p hp => by simp [hni p hp])]
    have hget : ∀ i, ∀ hi : i < (toBucketSets m).length,
        (toBucketSets m)[i] = bucketOf m i := by
      intro i hi
      have h1 := helem i hi
      rw [List.getElem?_eq_getElem hi] at h1
      exact Option.some.inj h1
    refine ⟨hget, hkey_lt, ?_⟩
    intro c day
    rw [mem_practice_iff]
    constructor
    · rintro ⟨i, hi, hcond, hmem⟩
      rw [hget i hi] at hmem
      unfold bucketOf at hmem
      rcases hfind : m.find? (fun p => p.1 == i) with _ | p
      · rw [hfind] at hmem
        exact absurd hmem (List.not_mem_nil c)
      · rw [hfind] at hmem
        have hpm := List.mem_of_find?_eq_some hfind
        have hpi : p.1 = i := by
          have := List.find?_some hfind
          simpa using this
        exact ⟨p, hpm, by rw [hpi]; exact hcond, hmem⟩
    · rintro ⟨p, hp, hcond, hmem⟩
      have hlt := hkey_lt p hp
      refine ⟨p.1, hlt, hcond, ?_⟩
      rw [hget p.1 hlt]
      unfold bucketOf
      rw [find?_key m p.1 p.2 hk hp]
      exact hmem

/-- Witness for C7: a store with a gap at bucket 0 still practices right. -/
theorem toBucketSets_spec_witness :
    cardA ∈ practice (toBucketSets [(1, [cardA])]) 2 :=
  ((toBucketSets_spec [(1, [cardA])] (by decide)).2.2 cardA 2).2
    ⟨(1, [cardA]), by decide, by decide, by decide⟩

/-- C8: `findCard` returns the first card, in scan order over the buckets'
card sets, whose front and back are content-equal to the given strings, and
`none` exactly when no card anywhere matches. -/
theorem findCard_scan (m : BucketMap) (front back : String) :
    findCard m front back =
      ((m.map Prod.snd).flatten).find?
        (fun c => c.front == front && c.back == back) ∧
    (findCard m front back = none ↔
      ∀ c ∈ (m.map Prod.snd).flatten, ¬(c.front = front ∧ c.back = back)) := by
  have h1 : findCard m front back =
      ((m.map Prod.snd).flatten).find?
        (fun c => c.front == front && c.back == back) := by
    induction m with
    | nil => rfl
    | cons p m ih =>
      cases p with
      | mk k s =>
        rw [List.map_cons, List.flatten_cons, List.find?_append, ← ih]
        rcases hf : s.find? (fun c => c.front == front && c.back == back)
          with _ | c
        · simp only [findCard, hf, Option.none_or]
        · simp only [findCard, hf]
          rfl
  refine ⟨h1, ?_⟩
  rw [h1, List.find?_eq_none]
  constructor
  · intro h c hc hcon
    have hb := h c hc
    simp [hcon.1, hcon.2] at hb
  · intro h c hc
    simp only [Bool.and_eq_true, beq_iff_eq, not_and]
    intro hf hb
    exact h c hc ⟨hf, hb⟩

end Flashcards
